import Mathlib

/-!
Shallow embedding of the FastNewman community-detection core of the
`data-miner` repository: the `CommunityManager` partition/degree table,
the `MaxHeap` priority queue of merge candidates, and the `FastNewman.fit`
orchestrator, translated from the TypeScript source.

Modelling conventions:
* JS `number` values occurring in this code are exact rationals (`ℚ`);
  the only arithmetic this code performs is +, -, *, / on integers and
  halves, so `ℚ` is exact.  A division by zero in JS produces the
  non-finite values NaN or ±Infinity; wherever a division by zero is
  actually reachable we model the result type as `Option ℚ`, `none`
  standing for a non-finite value (in the reachable cases the numerator
  is always 0, so the JS value is precisely NaN).
* A JS `Map` is an insertion-ordered association list `List (ℕ × α)`:
  `mapSet` updates in place or appends, `mapDelete` removes, `mapGet?`
  looks up, mirroring JS `Map.set/.delete/.get` including iteration order.
* The `while` loop of `fit` is driven by a fuel parameter that strictly
  bounds the number of iterations; when fuel runs out the loop returns the
  current state exactly as a `break` would.  `fit` supplies the fuel
  `n³ + n + 1`, far above the total number of candidates the loop can ever
  pop (each iteration pops one candidate; at most n²/2 candidates are
  seeded and each of the at most n−1 merges inserts at most n more).  All
  universally quantified theorems below are proved for every fuel value,
  so none of them depends on this bound.
-/

namespace DataMiner

/-! ### JS `Map` as an insertion-ordered association list -/

/-- JS `Map.get`: the value stored at key `k`, if any. -/
def mapGet? {α : Type} : List (ℕ × α) → ℕ → Option α
  | [], _ => none
  | (k', v) :: rest, k => if k' = k then some v else mapGet? rest k

/-- JS `map.get(k) ?? d`. -/
def mapGetD {α : Type} (l : List (ℕ × α)) (k : ℕ) (d : α) : α :=
  (mapGet? l k).getD d

/-- JS `Map.set`: update in place if the key is present, else append
(JS maps preserve insertion order). -/
def mapSet {α : Type} : List (ℕ × α) → ℕ → α → List (ℕ × α)
  | [], k, v => [(k, v)]
  | (k', v') :: rest, k, v =>
    if k' = k then (k, v) :: rest else (k', v') :: mapSet rest k v

/-- JS `Map.delete`. -/
def mapDelete {α : Type} (l : List (ℕ × α)) (k : ℕ) : List (ℕ × α) :=
  l.filter (fun p => decide (p.1 ≠ k))

/-- JS `Map.has`. -/
def mapHas {α : Type} (l : List (ℕ × α)) (k : ℕ) : Bool :=
  (mapGet? l k).isSome

/-- JS number division.  JS yields NaN for `0/0` and ±Infinity for `x/0`
with `x ≠ 0`; both are non-finite and modelled as `none`.  (At every
reachable call with a zero denominator in this program the numerator is
also zero, so `none` is precisely NaN.) -/
def jsDiv (a b : ℚ) : Option ℚ :=
  if b = 0 then none else some (a / b)

/-- JS `>` on scores that may be non-finite: any comparison involving
NaN is false, and no two distinct non-finite scores are ever compared in
this program (a history mixes `none` and `some` in no reachable run). -/
def jsGT : Option ℚ → Option ℚ → Bool
  | some x, some y => decide (y < x)
  | _, _ => false

/-! ### `CommunityManager` (src: `utils/community-manager`) -/

/-- The partition/degree bookkeeping manager, from the source class
`CommunityManager`. -/
structure CommunityManager where
  nodeToComm : List ℕ
  commDegree : List (ℕ × ℚ)
  totalEdges : ℚ
  nextCommId : ℕ
deriving DecidableEq, Repr

/-- The source constructor `new CommunityManager(nodeCount, degrees,
totalEdges)`: each node starts in its own singleton community. -/
def CommunityManager.init (nodeCount : ℕ) (degrees : List ℚ) (totalEdges : ℚ) :
    CommunityManager :=
  { nodeToComm := List.range nodeCount
    commDegree := (List.range nodeCount).map (fun i => (i, degrees.getD i 0))
    totalEdges := totalEdges
    nextCommId := nodeCount }

/-- `CommunityManager.mergeCommunities`: allocate a fresh id, give it the
summed degree, drop `commA` and `commB` from the degree table, and repoint
every node of either community at the fresh id.  Returns the fresh id
together with the updated manager (the source mutates in place and returns
the id). -/
def CommunityManager.mergeCommunities (cm : CommunityManager) (commA commB : ℕ) :
    ℕ × CommunityManager :=
  let degA := mapGetD cm.commDegree commA 0
  let degB := mapGetD cm.commDegree commB 0
  let mergedId := cm.nextCommId
  let cd1 := mapSet cm.commDegree mergedId (degA + degB)
  let cd2 := mapDelete (mapDelete cd1 commA) commB
  let n2c := cm.nodeToComm.map (fun c => if c = commA || c = commB then mergedId else c)
  (mergedId,
   { nodeToComm := n2c
     commDegree := cd2
     totalEdges := cm.totalEdges
     nextCommId := cm.nextCommId + 1 })

/-- `CommunityManager.deltaQ`: the modularity gain of merging `commA` and
`commB` given their crossing-edge count.  Pure: reads the manager, mutates
nothing.  Every call site in `fit` has `totalEdges > 0` (candidates exist
only when the graph has an edge), so plain `ℚ` division is exact here; the
`m = 0` division-by-zero of the separate `computeInitialModularity` path is
modelled there with `jsDiv`. -/
def CommunityManager.deltaQ (cm : CommunityManager) (commA commB : ℕ)
    (edgesBetween : ℚ) : ℚ :=
  let m := cm.totalEdges
  let degA := mapGetD cm.commDegree commA 0
  let degB := mapGetD cm.commDegree commB 0
  let eAB := edgesBetween / m
  let expAB := (degA * degB) / (2 * m * m)
  eAB - expAB

/-! ### `MaxHeap` (src: `utils/max-heap`), instantiated as in `fit` at the
merge-candidate element type `{ deltaQ, commA, commB }` -/

/-- `MergeCandidate` (src: `interfaces/merge-candidate.interface`). -/
structure MergeCandidate where
  deltaQ : ℚ
  commA : ℕ
  commB : ℕ
deriving DecidableEq, Repr, Inhabited

namespace MaxHeap

/-- The source's `swap(i, j)` on the backing array. -/
def swapL (l : List MergeCandidate) (i j : ℕ) : List MergeCandidate :=
  let a := l.getD i default
  let b := l.getD j default
  (l.set i b).set j a

/-- `bubbleUp`, with an explicit fuel argument making the recursion
structural; the index strictly decreases at each step, so `bubbleUp`
below supplies fuel `i + 1`, which never runs out. -/
def bubbleUpAux : ℕ → List MergeCandidate → ℕ → List MergeCandidate
  | 0, l, _ => l
  | _ + 1, l, 0 => l
  | fuel + 1, l, i + 1 =>
    let parent := i / 2
    if (l.getD (i + 1) default).deltaQ ≤ (l.getD parent default).deltaQ then l
    else bubbleUpAux fuel (swapL l (i + 1) parent) parent

def bubbleUp (l : List MergeCandidate) (i : ℕ) : List MergeCandidate :=
  bubbleUpAux (i + 1) l i

/-- The `largest` index computed by one `bubbleDown` step (two `if`s over
the children, exactly as in the source loop body). -/
def downTarget (l : List MergeCandidate) (i : ℕ) : ℕ :=
  let largest1 :=
    if 2 * i + 1 < l.length ∧
        (l.getD i default).deltaQ < (l.getD (2 * i + 1) default).deltaQ
    then 2 * i + 1 else i
  if 2 * i + 2 < l.length ∧
      (l.getD largest1 default).deltaQ < (l.getD (2 * i + 2) default).deltaQ
  then 2 * i + 2 else largest1

/-- `bubbleDown` with fuel; the index strictly increases and stays below
the (constant) length, so fuel `l.length + 1` never runs out. -/
def bubbleDownAux : ℕ → List MergeCandidate → ℕ → List MergeCandidate
  | 0, l, _ => l
  | fuel + 1, l, i =>
    let largest := downTarget l i
    if largest = i then l
    else bubbleDownAux fuel (swapL l i largest) largest

def bubbleDown (l : List MergeCandidate) (i : ℕ) : List MergeCandidate :=
  bubbleDownAux (l.length + 1) l i

/-- `MaxHeap.insert`: push at the end, restore heap order upward. -/
def insert (l : List MergeCandidate) (item : MergeCandidate) : List MergeCandidate :=
  bubbleUp (l ++ [item]) l.length

/-- `MaxHeap.extractMax`: `undefined` (`none`) on an empty heap, otherwise
the root element paired with the remaining heap (the source swaps the root
with the last slot, pops it, and restores heap order downward). -/
def extractMax (l : List MergeCandidate) :
    Option (MergeCandidate × List MergeCandidate) :=
  if l = [] then none
  else some (l.getD 0 default, bubbleDown ((swapL l 0 (l.length - 1)).dropLast) 0)

end MaxHeap

/-! ### `FastNewman` (src: the orchestrator class) -/

/-- One entry of `this.history`: a modularity score and a partition
snapshot.  `q : Option ℚ` because the score is NaN (modelled `none`) when
the graph is edgeless. -/
structure HistEntry where
  q : Option ℚ
  communities : List (List ℕ)
deriving DecidableEq, Repr, Inhabited

/-- `FastNewmanResult`. -/
structure FastNewmanResult where
  communities : List (List ℕ)
  modularityHistory : List HistEntry
deriving DecidableEq, Repr

/-- Row `i` of the input matrix (`adjacencyMatrix[i]`; always in range in
the source since `i < adjacencyMatrix.length`). -/
def rowOf (M : List (List ℚ)) (i : ℕ) : List ℚ :=
  M.getD i []

/-- The neighbor list built for node `i`: every column `j < n` whose entry
passes the JS test `adjacencyMatrix[i][j] !== 0`.  A missing entry of a
short row is JS `undefined`, which also passes `!== 0`; `get? = some 0` is
therefore the exact complement of the test. -/
def neighborsOf (M : List (List ℚ)) (i : ℕ) : List ℕ :=
  (List.range M.length).filter (fun j => decide ((rowOf M i).get? j ≠ some 0))

/-- `degrees[i]` as computed in `fit`: incremented once per pushed
neighbor, hence the neighbor count of row `i`. -/
def degreesOf (M : List (List ℚ)) : List ℚ :=
  (List.range M.length).map (fun i => ((neighborsOf M i).length : ℚ))

/-- `degrees.reduce((acc, deg) => acc + deg, 0)`. -/
def totalDegreeOf (M : List (List ℚ)) : ℚ :=
  (degreesOf M).foldl (· + ·) 0

/-- `edgeCount = totalDegree / 2`. -/
def edgeCountOf (M : List (List ℚ)) : ℚ :=
  totalDegreeOf M / 2

/-- The coarsened community multigraph: communityId → (neighborId →
crossing-edge count). -/
abbrev CommEdges := List (ℕ × List (ℕ × ℚ))

/-- The `commEdges` seeding loop of `fit`: every undirected edge once
(`neighbor ≤ node` skipped), symmetric increments on both endpoint
communities. -/
def seedCommEdges (M : List (List ℚ)) (cm : CommunityManager) : CommEdges :=
  (List.range M.length).foldl (fun ce node =>
    (neighborsOf M node).foldl (fun ce neighbor =>
      if neighbor ≤ node then ce
      else
        let commA := cm.nodeToComm.getD node 0
        let commB := cm.nodeToComm.getD neighbor 0
        if commA = commB then ce
        else
          let ce1 := if mapHas ce commA then ce else mapSet ce commA []
          let ce2 := if mapHas ce1 commB then ce1 else mapSet ce1 commB []
          let mapA := mapGetD ce2 commA []
          let ce3 := mapSet ce2 commA (mapSet mapA commB (mapGetD mapA commB 0 + 1))
          let mapB := mapGetD ce3 commB []
          mapSet ce3 commB (mapSet mapB commA (mapGetD mapB commA 0 + 1))) ce) []

/-- The heap-seeding loop of `fit`: one candidate per unordered community
pair, deduplicated through the canonical `makeKey` ordering (modelled as
the ordered pair instead of the string `"a#b"`). -/
def seedHeap (cm : CommunityManager) (ce : CommEdges) : List MergeCandidate :=
  (ce.foldl (fun (acc : List (ℕ × ℕ) × List MergeCandidate) entry =>
    entry.2.foldl (fun acc inner =>
      let comm := entry.1
      let nbr := inner.1
      let key := if comm < nbr then (comm, nbr) else (nbr, comm)
      if key ∈ acc.1 then acc
      else (key :: acc.1,
            MaxHeap.insert acc.2 ⟨cm.deltaQ comm nbr inner.2, comm, nbr⟩)) acc)
    ([], [])).2

/-- `computeInitialModularity`: `-Σ (deg/(2m))²`, with JS division (the
`m = 0` edgeless case makes every term `0/0` = NaN, hence `none`). -/
def computeInitialModularity (cm : CommunityManager) : Option ℚ :=
  let m := cm.totalEdges
  (cm.commDegree.foldl (fun acc p =>
    match acc, jsDiv p.2 (2 * m) with
    | some s, some f => some (s + f * f)
    | _, _ => none) (some 0)).map (fun s => -s)

/-- `extractCommunities`: group node indices by their current community,
in JS `Map` insertion order. -/
def extractCommunities (nodeToComm : List ℕ) : List (List ℕ) :=
  (nodeToComm.enum.foldl
    (fun b p => mapSet b p.2 (mapGetD b p.2 [] ++ [p.1])) []).map Prod.snd

/-- The mutable state of the merge loop. -/
structure LoopState where
  cm : CommunityManager
  commEdges : CommEdges
  heap : List MergeCandidate
  q : Option ℚ
  history : List HistEntry
deriving Repr

/-- The source helper `updateNeighbors(oldComm)`: fold `oldComm`'s
crossing-count entries into the accumulating `newNeighbors` map and re-key
each affected neighbor's own map from the two consumed ids to `mergedId`.
The snapshot `nbrMap` is read once, as in the source (`oldComm`'s own map
is never mutated during its iteration, since entries naming `cA`/`cB` are
skipped). -/
def updateNeighbors (oldComm mergedId cA cB : ℕ)
    (st : List (ℕ × ℚ) × CommEdges) : List (ℕ × ℚ) × CommEdges :=
  match mapGet? st.2 oldComm with
  | none => st
  | some nbrMap =>
    nbrMap.foldl (fun acc p =>
      let nbr := p.1
      let count := p.2
      if nbr = cA ∨ nbr = cB then acc
      else
        let newNbrs := mapSet acc.1 nbr (mapGetD acc.1 nbr 0 + count)
        let ce :=
          match mapGet? acc.2 nbr with
          | none => acc.2
          | some nm =>
            let nm1 := mapDelete (mapDelete nm cA) cB
            mapSet acc.2 nbr (mapSet nm1 mergedId (mapGetD nm1 mergedId 0 + count))
        (newNbrs, ce)) st

/-- One pass of the `while` loop of `fit`, driven by fuel (see the header
comment): check the target community count, pop the maximum-gain
candidate, stop on a non-positive gain, lazily discard stale candidates,
otherwise merge, record the step, re-key the coarsened multigraph and seed
fresh candidates. -/
def loopGo (desired : ℕ) : ℕ → LoopState → LoopState
  | 0, st => st
  | fuel + 1, st =>
    if st.heap.length = 0 then st
    else if st.cm.commDegree.length ≤ desired then st
    else
      match MaxHeap.extractMax st.heap with
      | none => st
      | some (cand, heap1) =>
        if cand.deltaQ ≤ 0 then { st with heap := heap1 }
        else if !(mapHas st.cm.commDegree cand.commA) ||
                !(mapHas st.cm.commDegree cand.commB) then
          loopGo desired fuel { st with heap := heap1 }
        else
          let mc := st.cm.mergeCommunities cand.commA cand.commB
          let mergedId := mc.1
          let cm' := mc.2
          let q' := st.q.map (fun x => x + cand.deltaQ)
          let hist' := st.history ++ [⟨q', extractCommunities cm'.nodeToComm⟩]
          let un := updateNeighbors cand.commB mergedId cand.commA cand.commB
                      (updateNeighbors cand.commA mergedId cand.commA cand.commB
                        ([], st.commEdges))
          let newNeighbors := un.1
          let ce1 := mapSet (mapDelete (mapDelete un.2 cand.commA) cand.commB)
                       mergedId newNeighbors
          let heap2 := newNeighbors.foldl (fun h p =>
              MaxHeap.insert h ⟨cm'.deltaQ mergedId p.1 p.2, mergedId, p.1⟩) heap1
          loopGo desired fuel
            { cm := cm', commEdges := ce1, heap := heap2, q := q', history := hist' }

/-- Fuel supplied to the merge loop (see the header comment). -/
def fitFuel (M : List (List ℚ)) : ℕ :=
  M.length * M.length * M.length + M.length + 1

/-- `this.history.reduce((acc, cur) => (cur.q > acc.q ? cur : acc))`:
first maximum under strict JS `>` wins. -/
def bestEntry : List HistEntry → HistEntry
  | [] => default
  | e :: rest => rest.foldl (fun acc cur => if jsGT cur.q acc.q then cur else acc) e

/-- `FastNewman.fit`, parametrised by the `numberOfCommunities` option and
by the history the instance has already accumulated (`this.history`, which
the source initialises to `[]` at construction and never clears, so a
second `fit` call on the same instance starts from the first call's
history). -/
def fitFrom (numberOfCommunities : Option ℕ) (h0 : List HistEntry)
    (M : List (List ℚ)) : FastNewmanResult :=
  let nodeCount := M.length
  let degrees := degreesOf M
  let edgeCount := edgeCountOf M
  let cm := CommunityManager.init nodeCount degrees edgeCount
  let ce := seedCommEdges M cm
  let heap := seedHeap cm ce
  let q0 := computeInitialModularity cm
  let hist := h0 ++ [⟨q0, extractCommunities cm.nodeToComm⟩]
  let desired := numberOfCommunities.getD 1
  let final := loopGo desired (fitFuel M) ⟨cm, ce, heap, q0, hist⟩
  let best := bestEntry final.history
  { communities := best.communities, modularityHistory := final.history }

/-- `fit` on a freshly constructed `FastNewman` instance. -/
def fit (numberOfCommunities : Option ℕ) (M : List (List ℚ)) : FastNewmanResult :=
  fitFrom numberOfCommunities [] M

end DataMiner

namespace DataMiner

/-! ### Basic lemmas about the JS `Map` model -/

theorem mapSet_eq_append_of_none {α : Type} {l : List (ℕ × α)} {k : ℕ} (v : α)
    (h : mapGet? l k = none) : mapSet l k v = l ++ [(k, v)] := by
  induction l with
  | nil => rfl
  | cons p rest ih =>
      obtain ⟨k', v'⟩ := p
      by_cases hk : k' = k
      · simp [mapGet?, hk] at h
      · simp only [mapGet?, hk, if_false] at h
        simp [mapSet, hk, ih h]

theorem mapGet?_eq_none_of_not_mem_keys {α : Type} {l : List (ℕ × α)} {k : ℕ}
    (h : k ∉ l.map Prod.fst) : mapGet? l k = none := by
  induction l with
  | nil => rfl
  | cons p rest ih =>
      obtain ⟨k', v'⟩ := p
      simp only [List.map_cons, List.mem_cons] at h
      push_neg at h
      simp only [mapGet?]
      rw [if_neg (fun hh => h.1 hh.symm), ih h.2]

theorem mapGet?_isSome_iff_mem_keys {α : Type} (l : List (ℕ × α)) (k : ℕ) :
    (mapGet? l k).isSome ↔ k ∈ l.map Prod.fst := by
  induction l with
  | nil => simp [mapGet?]
  | cons p rest ih =>
      by_cases hk : p.1 = k
      · simp [mapGet?, hk]
      · simp only [mapGet?, hk, if_false, List.map_cons, List.mem_cons, ih]
        constructor
        · intro h; exact Or.inr h
        · rintro (h | h)
          · exact absurd h.symm hk
          · exact h

end DataMiner

namespace DataMiner

/-! ### Concrete inputs used below -/

/-- The all-zero 5×5 adjacency matrix (an edgeless graph on 5 nodes). -/
def zeroFive : List (List ℚ) :=
  [[0, 0, 0, 0, 0], [0, 0, 0, 0, 0], [0, 0, 0, 0, 0], [0, 0, 0, 0, 0], [0, 0, 0, 0, 0]]

/-- The 2-node graph with a single edge. -/
def edgeTwo : List (List ℚ) := [[0, 1], [1, 0]]

/-- C1: for live communities `a` and `b` (present in the degree table with
aggregate degrees `dA` and `dB`) and any crossing-edge count `c`, `deltaQ`
returns exactly `c/m − dA·dB/(2·m²)` where `m` is the manager's immutable
total edge count.  `deltaQ` is a pure function of the manager in this
embedding, so it mutates no state by construction. -/
theorem deltaQ_gain_formula (cm : CommunityManager) (a b : ℕ) (dA dB c : ℚ)
    (ha : mapGet? cm.commDegree a = some dA)
    (hb : mapGet? cm.commDegree b = some dB) :
    cm.deltaQ a b c =
      c / cm.totalEdges - dA * dB / (2 * cm.totalEdges * cm.totalEdges) := by
  unfold CommunityManager.deltaQ mapGetD
  rw [ha, hb]
  rfl

/-- Witness for C1 at a concrete manager: two nodes of degree 1, one edge. -/
theorem deltaQ_gain_formula_witness :
    mapGet? (CommunityManager.init 2 [1, 1] 1).commDegree 0 = some 1 ∧
    mapGet? (CommunityManager.init 2 [1, 1] 1).commDegree 1 = some 1 ∧
    (CommunityManager.init 2 [1, 1] 1).deltaQ 0 1 1 =
      1 / (CommunityManager.init 2 [1, 1] 1).totalEdges -
        1 * 1 / (2 * (CommunityManager.init 2 [1, 1] 1).totalEdges *
          (CommunityManager.init 2 [1, 1] 1).totalEdges) :=
  ⟨by with_unfolding_all rfl, by with_unfolding_all rfl,
   deltaQ_gain_formula (CommunityManager.init 2 [1, 1] 1) 0 1 1 1 1
     (by with_unfolding_all rfl) (by with_unfolding_all rfl)⟩

/-- C2 (the code at the claimed input): on the edgeless 5×5 matrix the
trajectory does contain exactly one entry (the all-singleton partition)
and zero merges are performed, but the recorded score is NaN (`none`), not
0: `computeInitialModularity` has no `m = 0` special case and computes
`0/(2·0) = 0/0` for every community. -/
theorem fit_edgeless_score_is_nan :
    (fit none zeroFive).modularityHistory.length = 1 ∧
    (fit none zeroFive).communities = [[0], [1], [2], [3], [4]] ∧
    ((fit none zeroFive).modularityHistory.getD 0 default).q = none :=
  ⟨by with_unfolding_all rfl, by with_unfolding_all rfl, by with_unfolding_all rfl⟩

/-- C4 counterexample: the non-square (1×2) matrix `[[0, 0]]` completes
but returns one community, not an empty collection. -/
theorem fit_nonsquare_returns_community :
    (fit none [[0, 0]]).communities ≠ [] :=
  of_decide_eq_false (by with_unfolding_all rfl)

/-- C4 amended: a dimension-0 input completes and returns a result with
no communities (and a single trajectory entry of score 0); a non-square
input also completes rather than failing, but its community collection
need not be empty — the 1×2 matrix `[[0, 0]]` yields the single community
`[0]`. -/
theorem fit_dim0_no_communities :
    (fit none ([] : List (List ℚ))).communities = [] ∧
    (fit none ([] : List (List ℚ))).modularityHistory = [⟨some 0, []⟩] ∧
    (fit none [[0, 0]]).communities = [[0]] :=
  ⟨by with_unfolding_all rfl, by with_unfolding_all rfl, by with_unfolding_all rfl⟩

/-- C5 (the code at the claimed input): `this.history` is never reset by
`fit`, so a second call on the same instance starts from the first call's
history and returns a different result — its trajectory holds the first
run's two entries followed by the same two entries again. -/
theorem fit_second_call_on_same_instance_differs :
    (fitFrom none [] edgeTwo).modularityHistory.length = 2 ∧
    (fitFrom none (fitFrom none [] edgeTwo).modularityHistory edgeTwo
      ).modularityHistory.length = 4 ∧
    fitFrom none (fitFrom none [] edgeTwo).modularityHistory edgeTwo ≠
      fitFrom none [] edgeTwo :=
  ⟨by with_unfolding_all rfl, by with_unfolding_all rfl,
   of_decide_eq_false (by with_unfolding_all rfl)⟩

/-- Modelled from the spec: "compute each node's degree as its row sum" —
the spec-side degree definition, for comparison against the source's
`degreesOf` (which counts nonzero entries instead). -/
def specRowSumDegrees (M : List (List ℚ)) : List ℚ :=
  M.map (fun row => row.foldl (· + ·) 0)

/-- C3 counterexample: on the symmetric non-negative multiplicity matrix
`[[0, 2], [2, 0]]` the code computes degrees `[1, 1]` (nonzero-entry
counts), not the row sums `[2, 2]` the claim states. -/
theorem degrees_are_not_row_sums :
    degreesOf [[0, 2], [2, 0]] = [1, 1] ∧
    specRowSumDegrees [[0, 2], [2, 0]] = [2, 2] ∧
    degreesOf [[0, 2], [2, 0]] ≠ specRowSumDegrees [[0, 2], [2, 0]] :=
  ⟨by with_unfolding_all rfl, by with_unfolding_all rfl,
   of_decide_eq_false (by with_unfolding_all rfl)⟩

end DataMiner

namespace DataMiner

theorem length_filter_getq_ne (row : List ℚ) :
    ((List.range row.length).filter (fun j => decide (row.get? j ≠ some 0))).length =
      row.countP (fun x => decide (x ≠ 0)) := by
  induction row with
  | nil => rfl
  | cons x xs ih =>
      have hcomp :
          (fun j => decide ((x :: xs).get? j ≠ some 0)) ∘ Nat.succ =
            (fun j => decide (xs.get? j ≠ some 0)) := by
        funext j
        simp
      rw [List.length_cons, List.range_succ_eq_map, List.filter_cons,
        List.filter_map, hcomp]
      by_cases hx : x = 0
      · subst hx
        simp [List.countP_cons]
        simpa using ih
      · simp [hx, List.countP_cons]
        simpa using ih

/-- C3 amended: under the source, a node's degree is the number of nonzero
entries of its row (one increment per pushed neighbor), not the row sum;
`m` is half the sum of the degrees so computed. -/
theorem degreesOf_counts_nonzero_entries (M : List (List ℚ))
    (hsq : ∀ row ∈ M, row.length = M.length) (i : ℕ) (hi : i < M.length) :
    (degreesOf M).getD i 0 = ((rowOf M i).countP (fun x => decide (x ≠ 0)) : ℚ) ∧
    edgeCountOf M = (degreesOf M).foldl (· + ·) 0 / 2 := by
  constructor
  · have h1 : (degreesOf M).getD i 0 = ((neighborsOf M i).length : ℚ) := by
      unfold degreesOf
      rw [List.getD_eq_getElem?_getD, List.getElem?_map, List.getElem?_range hi]
      rfl
    have h2 : rowOf M i ∈ M := by
      unfold rowOf
      rw [List.getD_eq_getElem?_getD, List.getElem?_eq_getElem hi]
      exact List.getElem_mem hi
    have h3 : (rowOf M i).length = M.length := hsq _ h2
    rw [h1]
    unfold neighborsOf
    rw [← h3, length_filter_getq_ne]
  · rfl

/-- Witness for C3's amended theorem on the counterexample matrix. -/
theorem degreesOf_counts_nonzero_entries_witness :
    (∀ row ∈ [[(0 : ℚ), 2], [2, 0]], row.length = [[(0 : ℚ), 2], [2, 0]].length) ∧
    0 < [[(0 : ℚ), 2], [2, 0]].length ∧
    (degreesOf [[0, 2], [2, 0]]).getD 0 0 =
      ((rowOf [[0, 2], [2, 0]] 0).countP (fun x => decide (x ≠ 0)) : ℚ) :=
  ⟨by decide, by decide,
   (degreesOf_counts_nonzero_entries [[0, 2], [2, 0]] (by decide) 0 (by decide)).1⟩

end DataMiner

namespace DataMiner

theorem loopGo_of_target_reached (desired fuel : ℕ) (st : LoopState)
    (h : st.cm.commDegree.length ≤ desired) : loopGo desired fuel st = st := by
  cases fuel with
  | zero => rfl
  | succ f =>
      by_cases hh : st.heap.length = 0
      · simp [loopGo, hh]
      · simp [loopGo, hh, h]

theorem init_commDegree_length (n : ℕ) (ds : List ℚ) (m : ℚ) :
    (CommunityManager.init n ds m).commDegree.length = n := by
  simp [CommunityManager.init]

theorem mapGet?_append {α : Type} (l1 l2 : List (ℕ × α)) (k : ℕ) :
    mapGet? (l1 ++ l2) k =
      match mapGet? l1 k with
      | some v => some v
      | none => mapGet? l2 k := by
  induction l1 with
  | nil => rfl
  | cons p rest ih =>
      obtain ⟨k', v'⟩ := p
      by_cases hk : k' = k
      · simp [mapGet?, hk]
      · simp [mapGet?, hk, ih]

theorem foldl_buckets_fresh (ps : List (ℕ × ℕ)) (b : List (ℕ × List ℕ))
    (hfresh : ∀ p ∈ ps, mapGet? b p.2 = none)
    (hnodup : (ps.map Prod.snd).Nodup) :
    ps.foldl (fun b p => mapSet b p.2 (mapGetD b p.2 [] ++ [p.1])) b =
      b ++ ps.map (fun p => (p.2, [p.1])) := by
  induction ps generalizing b with
  | nil => simp
  | cons p rest ih =>
      obtain ⟨node, c⟩ := p
      simp only [List.foldl_cons]
      have h0 : mapGet? b c = none := hfresh _ (List.mem_cons_self _ _)
      have hD : mapGetD b c [] = [] := by rw [mapGetD, h0]; rfl
      rw [hD, mapSet_eq_append_of_none _ h0]
      simp only [List.map_cons, List.nodup_cons] at hnodup
      rw [ih]
      · simp
      · intro q hq
        have hq0 : mapGet? b q.2 = none := hfresh _ (List.mem_cons_of_mem _ hq)
        have hq1 : c ≠ q.2 := by
          intro hc
          exact hnodup.1 (hc ▸ (List.mem_map_of_mem Prod.snd hq))
        rw [mapGet?_append, hq0]
        simp [mapGet?, hq1]
      · exact hnodup.2

theorem zip_self_eq_map (l : List ℕ) : l.zip l = l.map (fun i => (i, i)) := by
  induction l with
  | nil => rfl
  | cons x xs ih => simp [List.zip_cons_cons, ih]

theorem extractCommunities_range (n : ℕ) :
    extractCommunities (List.range n) = (List.range n).map (fun i => [i]) := by
  unfold extractCommunities
  have he : (List.range n).enum = (List.range n).map (fun i => (i, i)) := by
    rw [List.enum_eq_zip_range, List.length_range, zip_self_eq_map]
  rw [he, foldl_buckets_fresh]
  · simp
  · intro p hp
    rfl
  · have : (Prod.snd ∘ fun i : ℕ => (i, i)) = id := by
      funext i
      rfl
    simp [this, List.nodup_range]

end DataMiner

namespace DataMiner

/-- C10: when the configured target community count is at least n (and
n ≥ 1), the merge loop stops before consuming anything: the trajectory is
exactly the one initial all-singleton entry carrying the initial
modularity score, and that entry's partition is also the returned best
partition. -/
theorem fit_target_at_least_n (desired : ℕ) (M : List (List ℚ))
    (hn : 1 ≤ M.length) (hd : M.length ≤ desired) :
    (fit (some desired) M).modularityHistory =
      [⟨computeInitialModularity
          (CommunityManager.init M.length (degreesOf M) (edgeCountOf M)),
        (List.range M.length).map (fun i => [i])⟩] ∧
    (fit (some desired) M).communities =
      (List.range M.length).map (fun i => [i]) := by
  have hlen : (CommunityManager.init M.length (degreesOf M) (edgeCountOf M)
      ).commDegree.length ≤ (some desired : Option ℕ).getD 1 := by
    rw [init_commDegree_length]
    simpa using hd
  simp only [fit, fitFrom]
  rw [loopGo_of_target_reached _ _ _ hlen]
  simp [bestEntry, CommunityManager.init, extractCommunities_range]

/-- Witness for C10: the 2-node single-edge graph with target 2. -/
theorem fit_target_at_least_n_witness :
    1 ≤ edgeTwo.length ∧ edgeTwo.length ≤ 2 ∧
    (fit (some 2) edgeTwo).communities =
      (List.range edgeTwo.length).map (fun i => [i]) :=
  ⟨by decide, by decide, (fit_target_at_least_n 2 edgeTwo (by decide) (by decide)).2⟩

end DataMiner

namespace DataMiner

theorem mapGet?_nonempty {α : Type} {l : List (ℕ × α)} {k : ℕ} {v : α}
    (h : mapGet? l k = some v) : 1 ≤ l.length := by
  cases l with
  | nil => simp [mapGet?] at h
  | cons p rest => simp

theorem mapDelete_cons {α : Type} (k' : ℕ) (v' : α) (rest : List (ℕ × α)) (a : ℕ) :
    mapDelete ((k', v') :: rest) a =
      if k' = a then mapDelete rest a else (k', v') :: mapDelete rest a := by
  by_cases h : k' = a
  · simp [mapDelete, List.filter_cons, h]
  · simp [mapDelete, List.filter_cons, h]

theorem mapDelete_of_not_mem_keys {α : Type} {l : List (ℕ × α)} {a : ℕ}
    (h : a ∉ l.map Prod.fst) : mapDelete l a = l := by
  induction l with
  | nil => rfl
  | cons p rest ih =>
      simp only [List.map_cons, List.mem_cons] at h
      push_neg at h
      rw [mapDelete_cons, if_neg (fun hh => h.1 hh.symm), ih h.2]

theorem mapDelete_snd_sum (l : List (ℕ × ℚ)) (a : ℕ) (v : ℚ)
    (hnodup : (l.map Prod.fst).Nodup) (hget : mapGet? l a = some v) :
    ((mapDelete l a).map Prod.snd).sum = (l.map Prod.snd).sum - v := by
  induction l with
  | nil => simp [mapGet?] at hget
  | cons p rest ih =>
      obtain ⟨k, w⟩ := p
      simp only [List.map_cons, List.nodup_cons] at hnodup
      by_cases hk : k = a
      · subst hk
        rw [mapGet?, if_pos rfl] at hget
        have hw : w = v := by injection hget
        subst hw
        rw [mapDelete_cons, if_pos rfl,
          mapDelete_of_not_mem_keys hnodup.1]
        simp only [List.map_cons, List.sum_cons]
        ring
      · rw [mapGet?, if_neg hk] at hget
        rw [mapDelete_cons, if_neg hk]
        simp only [List.map_cons, List.sum_cons]
        rw [ih hnodup.2 hget]
        ring

theorem mapDelete_length (l : List (ℕ × ℚ)) (a : ℕ) (v : ℚ)
    (hnodup : (l.map Prod.fst).Nodup) (hget : mapGet? l a = some v) :
    (mapDelete l a).length = l.length - 1 := by
  induction l with
  | nil => simp [mapGet?] at hget
  | cons p rest ih =>
      obtain ⟨k, w⟩ := p
      simp only [List.map_cons, List.nodup_cons] at hnodup
      by_cases hk : k = a
      · subst hk
        rw [mapDelete_cons, if_pos rfl, mapDelete_of_not_mem_keys hnodup.1]
        simp
      · rw [mapGet?, if_neg hk] at hget
        have hlen := mapGet?_nonempty hget
        rw [mapDelete_cons, if_neg hk]
        simp only [List.length_cons]
        rw [ih hnodup.2 hget]
        omega

theorem mapGet?_mapDelete_ne {α : Type} (l : List (ℕ × α)) (a k : ℕ) (h : k ≠ a) :
    mapGet? (mapDelete l a) k = mapGet? l k := by
  induction l with
  | nil => rfl
  | cons p rest ih =>
      obtain ⟨k', v'⟩ := p
      by_cases hk' : k' = a
      · subst hk'
        rw [mapDelete_cons, if_pos rfl, mapGet?, if_neg (fun hh => h hh.symm)]
        exact ih
      · rw [mapDelete_cons, if_neg hk']
        by_cases hkk : k' = k
        · rw [mapGet?, if_pos hkk, mapGet?, if_pos hkk]
        · rw [mapGet?, if_neg hkk, mapGet?, if_neg hkk]
          exact ih

theorem mapDelete_keys {α : Type} (l : List (ℕ × α)) (a : ℕ) :
    (mapDelete l a).map Prod.fst =
      (l.map Prod.fst).filter (fun k => decide (k ≠ a)) := by
  induction l with
  | nil => rfl
  | cons p rest ih =>
      rw [List.map_cons, List.filter_cons, mapDelete_cons]
      by_cases hp : p.1 = a
      · rw [if_pos hp, ih]
        simp [hp]
      · rw [if_neg hp, List.map_cons, ih]
        simp [hp]

end DataMiner

namespace DataMiner

/-- C6: `mergeCommunities(a, b)` with `a ≠ b` both live (under the
manager's structural invariants: distinct table keys, all below the id
counter, as established at construction and preserved by every merge)
keeps the sum of live aggregate degrees unchanged, shrinks the live
community count by exactly one, allocates an id fresh with respect to any
set of previously used ids lying below the counter, and gives the new
community aggregate degree `degree(a) + degree(b)`. -/
theorem mergeCommunities_invariants (cm : CommunityManager) (a b : ℕ)
    (used : List ℕ) (dA dB : ℚ)
    (hnodup : (cm.commDegree.map Prod.fst).Nodup)
    (hlt : ∀ k ∈ cm.commDegree.map Prod.fst, k < cm.nextCommId)
    (hused : ∀ k ∈ used, k < cm.nextCommId)
    (hab : a ≠ b)
    (ha : mapGet? cm.commDegree a = some dA)
    (hb : mapGet? cm.commDegree b = some dB) :
    (((cm.mergeCommunities a b).2.commDegree.map Prod.snd).sum =
      (cm.commDegree.map Prod.snd).sum) ∧
    ((cm.mergeCommunities a b).2.commDegree.length = cm.commDegree.length - 1) ∧
    ((cm.mergeCommunities a b).1 ∉ used) ∧
    (mapGet? (cm.mergeCommunities a b).2.commDegree (cm.mergeCommunities a b).1 =
      some (dA + dB)) := by
  have hmid : mapGet? cm.commDegree cm.nextCommId = none := by
    apply mapGet?_eq_none_of_not_mem_keys
    intro hmem
    exact absurd (hlt _ hmem) (lt_irrefl _)
  have haklt : a < cm.nextCommId :=
    hlt _ ((mapGet?_isSome_iff_mem_keys _ a).1 (by rw [ha]; rfl))
  have hbklt : b < cm.nextCommId :=
    hlt _ ((mapGet?_isSome_iff_mem_keys _ b).1 (by rw [hb]; rfl))
  have hset : mapSet cm.commDegree cm.nextCommId
      (mapGetD cm.commDegree a 0 + mapGetD cm.commDegree b 0) =
      cm.commDegree ++ [(cm.nextCommId, dA + dB)] := by
    rw [mapSet_eq_append_of_none _ hmid]
    rw [mapGetD, ha, mapGetD, hb]
    rfl
  have hnodup1 : ((cm.commDegree ++ [(cm.nextCommId, dA + dB)]).map Prod.fst).Nodup := by
    rw [List.map_append]
    refine List.Nodup.append hnodup (by simp) ?_
    intro x hx hy
    simp only [List.map_cons, List.map_nil, List.mem_singleton] at hy
    exact absurd (hlt _ hx) (by rw [hy]; exact lt_irrefl _)
  have hget1a : mapGet? (cm.commDegree ++ [(cm.nextCommId, dA + dB)]) a = some dA := by
    rw [mapGet?_append, ha]
  have hget1b : mapGet? (cm.commDegree ++ [(cm.nextCommId, dA + dB)]) b = some dB := by
    rw [mapGet?_append, hb]
  have hgetXb : mapGet? (mapDelete (cm.commDegree ++ [(cm.nextCommId, dA + dB)]) a) b
      = some dB := by
    rw [mapGet?_mapDelete_ne _ _ _ (fun h => hab h.symm), hget1b]
  have hnodupX : ((mapDelete (cm.commDegree ++ [(cm.nextCommId, dA + dB)]) a).map
      Prod.fst).Nodup := by
    rw [mapDelete_keys]
    exact List.Nodup.filter _ hnodup1
  simp only [CommunityManager.mergeCommunities, hset]
  refine ⟨?_, ?_, ?_, ?_⟩
  · rw [mapDelete_snd_sum _ b dB hnodupX hgetXb,
      mapDelete_snd_sum _ a dA hnodup1 hget1a]
    simp only [List.map_append, List.sum_append, List.map_cons, List.map_nil,
      List.sum_cons, List.sum_nil]
    ring
  · rw [mapDelete_length _ b dB hnodupX hgetXb,
      mapDelete_length _ a dA hnodup1 hget1a]
    have h1 := mapGet?_nonempty ha
    simp only [List.length_append, List.length_cons, List.length_nil]
    omega
  · intro hmem
    exact absurd (hused _ hmem) (lt_irrefl _)
  · rw [mapGet?_mapDelete_ne _ _ _ (fun h : cm.nextCommId = b => by omega),
      mapGet?_mapDelete_ne _ _ _ (fun h : cm.nextCommId = a => by omega),
      mapGet?_append, hmid]
    simp [mapGet?]

/-- Witness for C6: merging the two singleton communities of the 2-node
single-edge graph's manager. -/
theorem mergeCommunities_invariants_witness :
    ((0 : ℕ) ≠ 1) ∧
    mapGet? (CommunityManager.init 2 [1, 1] 1).commDegree 0 = some 1 ∧
    ((((CommunityManager.init 2 [1, 1] 1).mergeCommunities 0 1
        ).2.commDegree.map Prod.snd).sum =
      ((CommunityManager.init 2 [1, 1] 1).commDegree.map Prod.snd).sum) ∧
    (((CommunityManager.init 2 [1, 1] 1).mergeCommunities 0 1).2.commDegree.length =
      (CommunityManager.init 2 [1, 1] 1).commDegree.length - 1) ∧
    (((CommunityManager.init 2 [1, 1] 1).mergeCommunities 0 1).1 ∉ [0, 1]) ∧
    (mapGet? ((CommunityManager.init 2 [1, 1] 1).mergeCommunities 0 1).2.commDegree
        ((CommunityManager.init 2 [1, 1] 1).mergeCommunities 0 1).1 =
      some (1 + 1)) := by
  have h := mergeCommunities_invariants (CommunityManager.init 2 [1, 1] 1) 0 1
    [0, 1] 1 1 (by with_unfolding_all decide) (by with_unfolding_all decide)
    (by decide) (by decide) (by with_unfolding_all rfl) (by with_unfolding_all rfl)
  exact ⟨by decide, by with_unfolding_all rfl, h.1, h.2.1, h.2.2.1, h.2.2.2⟩

end DataMiner

namespace DataMiner

theorem count_flatten_insertStep (b : List (ℕ × List ℕ)) (c node x : ℕ) :
    (((mapSet b c (mapGetD b c [] ++ [node])).map Prod.snd).flatten).count x =
      ((b.map Prod.snd).flatten).count x + if node = x then 1 else 0 := by
  induction b with
  | nil =>
      simp [mapSet, mapGetD, mapGet?, List.count_cons]
  | cons p rest ih =>
      obtain ⟨c', ns⟩ := p
      by_cases hc : c' = c
      · subst hc
        have hD : mapGetD ((c', ns) :: rest) c' [] = ns := by
          rw [mapGetD, mapGet?, if_pos rfl]
          rfl
        rw [hD, mapSet, if_pos rfl]
        simp only [List.map_cons, List.flatten_cons, List.count_append,
          List.count_cons, List.count_nil, beq_iff_eq]
        ring
      · have hD : mapGetD ((c', ns) :: rest) c [] = mapGetD rest c [] := by
          rw [mapGetD, mapGet?, if_neg hc]
          rfl
        rw [hD, mapSet, if_neg hc]
        simp only [List.map_cons, List.flatten_cons, List.count_append, ih]
        ring

theorem count_flatten_buckets (ps : List (ℕ × ℕ)) (b : List (ℕ × List ℕ)) (x : ℕ) :
    (((ps.foldl (fun b p => mapSet b p.2 (mapGetD b p.2 [] ++ [p.1])) b).map
        Prod.snd).flatten).count x =
      ((b.map Prod.snd).flatten).count x + (ps.map Prod.fst).count x := by
  induction ps generalizing b with
  | nil => simp
  | cons p rest ih =>
      simp only [List.foldl_cons, List.map_cons]
      rw [ih, count_flatten_insertStep, List.count_cons]
      simp only [beq_iff_eq]
      ring

theorem count_flatten_extractCommunities (l : List ℕ) (x : ℕ) :
    ((extractCommunities l).flatten).count x = if x < l.length then 1 else 0 := by
  unfold extractCommunities
  rw [count_flatten_buckets]
  simp only [List.map_nil, List.flatten_nil, List.count_nil, Nat.zero_add]
  rw [List.enum_map_fst]
  by_cases hx : x < l.length
  · rw [if_pos hx]
    exact List.count_eq_one_of_mem (List.nodup_range _) (List.mem_range.mpr hx)
  · rw [if_neg hx]
    exact List.count_eq_zero_of_not_mem (fun h => hx (List.mem_range.mp h))

theorem mergeCommunities_nodeToComm_length (cm : CommunityManager) (a b : ℕ) :
    (cm.mergeCommunities a b).2.nodeToComm.length = cm.nodeToComm.length := by
  simp [CommunityManager.mergeCommunities]

/-- The loop invariant behind partition validity: the node→community table
keeps its length, and every recorded snapshot partitions `[0, n)`. -/
def StateOK (n : ℕ) (st : LoopState) : Prop :=
  st.cm.nodeToComm.length = n ∧
  ∀ e ∈ st.history, ∀ i, i < n → (e.communities.flatten).count i = 1

theorem loopGo_stateOK (desired fuel n : ℕ) (st : LoopState) (h : StateOK n st) :
    StateOK n (loopGo desired fuel st) := by
  induction fuel generalizing st with
  | zero => exact h
  | succ f ih =>
      unfold loopGo
      split
      · exact h
      split
      · exact h
      split
      · exact h
      split
      · exact h
      split
      · exact ih _ h
      refine ih _ ⟨?_, ?_⟩
      · rw [mergeCommunities_nodeToComm_length]
        exact h.1
      · intro e he i hi
        rcases List.mem_append.mp he with h' | h'
        · exact h.2 e h' i hi
        · have he2 := List.mem_singleton.mp h'
          subst he2
          simp only
          rw [count_flatten_extractCommunities, mergeCommunities_nodeToComm_length,
            h.1, if_pos hi]

/-- C7: for every input matrix and every entry of the trajectory that
`fit` produces, each node index below the input dimension occurs exactly
once across that entry's partition snapshot (exactly one community
contains it, exactly once). -/
theorem fit_partition_validity (numC : Option ℕ) (M : List (List ℚ))
    (e : HistEntry) (he : e ∈ (fit numC M).modularityHistory)
    (i : ℕ) (hi : i < M.length) :
    (e.communities.flatten).count i = 1 := by
  simp only [fit, fitFrom] at he
  refine (loopGo_stateOK _ _ M.length _ ⟨?_, ?_⟩).2 e he i hi
  · simp [CommunityManager.init]
  · intro e' he' j hj
    simp only [List.nil_append, List.mem_singleton] at he'
    subst he'
    simp only
    rw [count_flatten_extractCommunities]
    simp [CommunityManager.init, hj]

/-- Witness for C7: the post-merge snapshot of the 2-node run. -/
theorem fit_partition_validity_witness :
    (⟨some 0, [[0, 1]]⟩ : HistEntry) ∈ (fit none edgeTwo).modularityHistory ∧
    (0 : ℕ) < edgeTwo.length ∧
    (((⟨some 0, [[0, 1]]⟩ : HistEntry).communities.flatten).count 0 = 1) :=
  ⟨of_decide_eq_true (by with_unfolding_all rfl), by decide,
   fit_partition_validity none edgeTwo ⟨some 0, [[0, 1]]⟩
     (of_decide_eq_true (by with_unfolding_all rfl)) 0 (by decide)⟩

end DataMiner

namespace DataMiner

theorem foldl_preserves {σ α : Type} (f : σ → α → σ) (l : List α) (s : σ)
    (P : σ → Prop) (h0 : P s) (hstep : ∀ acc x, x ∈ l → P acc → P (f acc x)) :
    P (l.foldl f s) := by
  induction l generalizing s with
  | nil => exact h0
  | cons x xs ih =>
      exact ih _ (hstep s x (List.mem_cons_self _ _) h0)
        (fun acc y hy => hstep acc y (List.mem_cons_of_mem _ hy))

theorem mapGet?_mem {α : Type} {l : List (ℕ × α)} {k : ℕ} {v : α}
    (h : mapGet? l k = some v) : (k, v) ∈ l := by
  induction l with
  | nil => simp [mapGet?] at h
  | cons p rest ih =>
      obtain ⟨k', v'⟩ := p
      by_cases hk : k' = k
      · subst hk
        rw [mapGet?, if_pos rfl] at h
        have := Option.some.inj h
        subst this
        exact List.mem_cons_self _ _
      · rw [mapGet?, if_neg hk] at h
        exact List.mem_cons_of_mem _ (ih h)

theorem mem_mapSet {α : Type} {l : List (ℕ × α)} {k : ℕ} {v : α} {p : ℕ × α}
    (h : p ∈ mapSet l k v) : p = (k, v) ∨ p ∈ l := by
  induction l with
  | nil => simpa [mapSet] using h
  | cons q rest ih =>
      obtain ⟨k', v'⟩ := q
      by_cases hk : k' = k
      · subst hk
        rw [mapSet, if_pos rfl] at h
        rcases List.mem_cons.mp h with h' | h'
        · exact Or.inl h'
        · exact Or.inr (List.mem_cons_of_mem _ h')
      · rw [mapSet, if_neg hk] at h
        rcases List.mem_cons.mp h with h' | h'
        · exact Or.inr (h' ▸ List.mem_cons_self _ _)
        · rcases ih h' with h'' | h''
          · exact Or.inl h''
          · exact Or.inr (List.mem_cons_of_mem _ h'')

theorem mapGet?_mapSet_ne {α : Type} (l : List (ℕ × α)) (k k' : ℕ) (v : α)
    (h : k' ≠ k) : mapGet? (mapSet l k v) k' = mapGet? l k' := by
  induction l with
  | nil =>
      show mapGet? [(k, v)] k' = mapGet? [] k'
      simp only [mapGet?]
      rw [if_neg (fun hh : k = k' => h hh.symm)]
  | cons q rest ih =>
      obtain ⟨k0, v0⟩ := q
      by_cases hk : k0 = k
      · subst hk
        rw [mapSet, if_pos rfl, mapGet?, if_neg (fun hh => h hh.symm),
          mapGet?, if_neg (fun hh => h hh.symm)]
      · rw [mapSet, if_neg hk]
        by_cases hkk : k0 = k'
        · rw [mapGet?, if_pos hkk, mapGet?, if_pos hkk]
        · rw [mapGet?, if_neg hkk, mapGet?, if_neg hkk]
          exact ih

end DataMiner

namespace DataMiner

namespace MaxHeap

theorem swapL_length (l : List MergeCandidate) (i j : ℕ) :
    (swapL l i j).length = l.length := by
  simp [swapL]

theorem mem_swapL {x : MergeCandidate} {l : List MergeCandidate} {i j : ℕ}
    (hi : i < l.length) (hj : j < l.length) (hx : x ∈ swapL l i j) : x ∈ l := by
  unfold swapL at hx
  rcases List.mem_or_eq_of_mem_set hx with hx1 | hx1
  · rcases List.mem_or_eq_of_mem_set hx1 with hx2 | hx2
    · exact hx2
    · subst hx2
      rw [List.getD_eq_getElem l default hj]
      exact List.getElem_mem hj
  · subst hx1
    rw [List.getD_eq_getElem l default hi]
    exact List.getElem_mem hi

theorem le_downTarget (l : List MergeCandidate) (i : ℕ) : i ≤ downTarget l i := by
  simp only [downTarget]
  split_ifs <;> omega

theorem downTarget_lt_length (l : List MergeCandidate) (i : ℕ)
    (h : downTarget l i ≠ i) : downTarget l i < l.length := by
  simp only [downTarget] at *
  split_ifs at * with h1 h2 h2
  · exact h2.1
  · exact h1.1
  · exact h2.1
  · exact absurd rfl h

theorem mem_bubbleDownAux {x : MergeCandidate} (fuel : ℕ) (l : List MergeCandidate)
    (i : ℕ) (hx : x ∈ bubbleDownAux fuel l i) : x ∈ l := by
  induction fuel generalizing l i with
  | zero => exact hx
  | succ f ih =>
      rw [bubbleDownAux] at hx
      by_cases hT : downTarget l i = i
      · rwa [if_pos hT] at hx
      · rw [if_neg hT] at hx
        have h1 : downTarget l i < l.length := downTarget_lt_length l i hT
        have h2 : i ≤ downTarget l i := le_downTarget l i
        have h3 : i < l.length := lt_of_le_of_lt h2 h1
        exact mem_swapL h3 h1 (ih _ _ hx)

theorem mem_bubbleUpAux {x : MergeCandidate} (fuel : ℕ) (l : List MergeCandidate)
    (i : ℕ) (hi : i < l.length) (hx : x ∈ bubbleUpAux fuel l i) : x ∈ l := by
  induction fuel generalizing l i with
  | zero => exact hx
  | succ f ih =>
      match i with
      | 0 => exact hx
      | i + 1 =>
          rw [bubbleUpAux] at hx
          by_cases hc : (l.getD (i + 1) default).deltaQ ≤ (l.getD (i / 2) default).deltaQ
          · rwa [if_pos hc] at hx
          · rw [if_neg hc] at hx
            have hp : i / 2 < l.length := by omega
            refine mem_swapL hi hp (ih _ _ ?_ hx)
            rw [swapL_length]
            omega

theorem mem_insert {x c : MergeCandidate} {l : List MergeCandidate}
    (hx : x ∈ insert l c) : x ∈ l ∨ x = c := by
  unfold insert bubbleUp at hx
  have h1 : l.length < (l ++ [c]).length := by simp
  have h2 := mem_bubbleUpAux _ _ _ h1 hx
  rcases List.mem_append.mp h2 with h | h
  · exact Or.inl h
  · exact Or.inr (List.mem_singleton.mp h)

theorem extractMax_mem {l rest : List MergeCandidate} {cand : MergeCandidate}
    (hE : extractMax l = some (cand, rest)) : cand ∈ l := by
  unfold extractMax at hE
  by_cases hl : l = []
  · rw [if_pos hl] at hE
    exact absurd hE (by simp)
  · rw [if_neg hl] at hE
    have h1 := (Prod.mk.injEq _ _ _ _).mp (Option.some.inj hE)
    have hlen : 0 < l.length := List.length_pos.mpr hl
    rw [← h1.1, List.getD_eq_getElem l default hlen]
    exact List.getElem_mem hlen

theorem mem_extractMax_rest {l rest : List MergeCandidate} {cand x : MergeCandidate}
    (hE : extractMax l = some (cand, rest)) (hx : x ∈ rest) : x ∈ l := by
  unfold extractMax at hE
  by_cases hl : l = []
  · rw [if_pos hl] at hE
    exact absurd hE (by simp)
  · rw [if_neg hl] at hE
    have h1 := (Prod.mk.injEq _ _ _ _).mp (Option.some.inj hE)
    have hlen : 0 < l.length := List.length_pos.mpr hl
    rw [← h1.2] at hx
    have h2 := mem_bubbleDownAux _ _ _ hx
    have h3 : (swapL l 0 (l.length - 1)).dropLast ⊆ swapL l 0 (l.length - 1) :=
      List.dropLast_subset _
    exact mem_swapL hlen (by omega) (h3 h2)

end MaxHeap

end DataMiner

namespace DataMiner

theorem two_le_length_of_mem {l : List ℕ} {a b : ℕ}
    (ha : a ∈ l) (hb : b ∈ l) (hab : a ≠ b) : 2 ≤ l.length := by
  match l with
  | [] => simp at ha
  | [x] =>
      simp only [List.mem_singleton] at ha hb
      exact absurd (ha.trans hb.symm) hab
  | x :: y :: rest => simp

theorem merge_commDegree_eq (cm : CommunityManager) (a b : ℕ)
    (hmid : mapGet? cm.commDegree cm.nextCommId = none)
    (hma : cm.nextCommId ≠ a) (hmb : cm.nextCommId ≠ b) :
    (cm.mergeCommunities a b).2.commDegree =
      mapDelete (mapDelete cm.commDegree a) b ++
        [(cm.nextCommId, mapGetD cm.commDegree a 0 + mapGetD cm.commDegree b 0)] := by
  simp only [CommunityManager.mergeCommunities]
  rw [mapSet_eq_append_of_none _ hmid]
  unfold mapDelete
  rw [List.filter_append, List.filter_append]
  simp [hma, hmb]

theorem merge_commDegree_length (cm : CommunityManager) (a b : ℕ) (dA dB : ℚ)
    (hnodup : (cm.commDegree.map Prod.fst).Nodup)
    (hlt : ∀ k ∈ cm.commDegree.map Prod.fst, k < cm.nextCommId)
    (hab : a ≠ b)
    (ha : mapGet? cm.commDegree a = some dA)
    (hb : mapGet? cm.commDegree b = some dB) :
    (cm.mergeCommunities a b).2.commDegree.length = cm.commDegree.length - 1 ∧
    2 ≤ cm.commDegree.length := by
  have hmid : mapGet? cm.commDegree cm.nextCommId = none := by
    apply mapGet?_eq_none_of_not_mem_keys
    intro hmem
    exact absurd (hlt _ hmem) (lt_irrefl _)
  have haklt : a < cm.nextCommId :=
    hlt _ ((mapGet?_isSome_iff_mem_keys _ a).1 (by rw [ha]; rfl))
  have hbklt : b < cm.nextCommId :=
    hlt _ ((mapGet?_isSome_iff_mem_keys _ b).1 (by rw [hb]; rfl))
  have hXnodup : ((mapDelete cm.commDegree a).map Prod.fst).Nodup := by
    rw [mapDelete_keys]
    exact List.Nodup.filter _ hnodup
  have hXb : mapGet? (mapDelete cm.commDegree a) b = some dB := by
    rw [mapGet?_mapDelete_ne _ _ _ (fun h => hab h.symm), hb]
  have h2le : 2 ≤ cm.commDegree.length := by
    have := two_le_length_of_mem
      ((mapGet?_isSome_iff_mem_keys _ a).1 (by rw [ha]; rfl))
      ((mapGet?_isSome_iff_mem_keys _ b).1 (by rw [hb]; rfl)) hab
    simpa using this
  refine ⟨?_, h2le⟩
  rw [merge_commDegree_eq cm a b hmid (by omega) (by omega)]
  rw [List.length_append, mapDelete_length _ b dB hXnodup hXb,
    mapDelete_length _ a dA hnodup ha]
  simp only [List.length_cons, List.length_nil]
  omega

/-- Ids occurring in heap candidates are below `bound` and each candidate
has distinct endpoints. -/
def HeapBelow (heap : List MergeCandidate) (bound : ℕ) : Prop :=
  ∀ c ∈ heap, c.commA ≠ c.commB ∧ c.commA < bound ∧ c.commB < bound

/-- Outer and inner community ids of the coarsened multigraph are below
`bound`. -/
def EdgesBelow (ce : CommEdges) (bound : ℕ) : Prop :=
  ∀ p ∈ ce, p.1 < bound ∧ ∀ r ∈ p.2, r.1 < bound

/-- The structural loop invariant: degree-table keys are distinct and
below the id counter, heap candidates have distinct endpoints below the
counter, and every multigraph id is below the counter. -/
def LoopInv (st : LoopState) : Prop :=
  (st.cm.commDegree.map Prod.fst).Nodup ∧
  (∀ k ∈ st.cm.commDegree.map Prod.fst, k < st.cm.nextCommId) ∧
  HeapBelow st.heap st.cm.nextCommId ∧
  EdgesBelow st.commEdges st.cm.nextCommId

end DataMiner

namespace DataMiner

theorem updateNeighbors_get_preserved (oldComm mid cA cB k : ℕ)
    (pr : List (ℕ × ℚ) × CommEdges) (hk : k = cA ∨ k = cB) :
    mapGet? (updateNeighbors oldComm mid cA cB pr).2 k = mapGet? pr.2 k := by
  unfold updateNeighbors
  cases hM : mapGet? pr.2 oldComm with
  | none => rfl
  | some nbrMap =>
      refine foldl_preserves _ _ _
        (fun acc : List (ℕ × ℚ) × CommEdges =>
          mapGet? acc.2 k = mapGet? pr.2 k) rfl ?_
      intro acc p hp hacc
      by_cases hskip : p.1 = cA ∨ p.1 = cB
      · rw [if_pos hskip]
        exact hacc
      · rw [if_neg hskip]
        push_neg at hskip
        have hpk : k ≠ p.1 := by
          rcases hk with h | h <;> subst h
          · exact fun hh => hskip.1 hh.symm
          · exact fun hh => hskip.2 hh.symm
        cases hN : mapGet? acc.2 p.1 with
        | none => exact hacc
        | some nm =>
            dsimp only
            rw [mapGet?_mapSet_ne _ _ _ _ hpk]
            exact hacc

theorem updateNeighbors_below (oldComm cA cB bound : ℕ)
    (pr : List (ℕ × ℚ) × CommEdges)
    (hread : ∀ v, mapGet? pr.2 oldComm = some v → ∀ r ∈ v, r.1 < bound)
    (hnn : ∀ r ∈ pr.1, r.1 < bound)
    (hce : ∀ p ∈ pr.2, p.1 < bound ∧ ∀ r ∈ p.2, r.1 ≤ bound) :
    (∀ r ∈ (updateNeighbors oldComm bound cA cB pr).1, r.1 < bound) ∧
    (∀ p ∈ (updateNeighbors oldComm bound cA cB pr).2,
      p.1 < bound ∧ ∀ r ∈ p.2, r.1 ≤ bound) := by
  unfold updateNeighbors
  cases hM : mapGet? pr.2 oldComm with
  | none => exact ⟨hnn, hce⟩
  | some nbrMap =>
      have hreadv := hread nbrMap hM
      refine foldl_preserves _ _ _
        (fun acc : List (ℕ × ℚ) × CommEdges => (∀ r ∈ acc.1, r.1 < bound) ∧
          (∀ p ∈ acc.2, p.1 < bound ∧ ∀ r ∈ p.2, r.1 ≤ bound)) ⟨hnn, hce⟩ ?_
      intro acc p hp hacc
      by_cases hskip : p.1 = cA ∨ p.1 = cB
      · rw [if_pos hskip]
        exact hacc
      · rw [if_neg hskip]
        have hpb : p.1 < bound := hreadv p hp
        refine ⟨?_, ?_⟩
        · intro r hr
          dsimp only at hr
          rcases mem_mapSet hr with h | h
          · rw [h]
            exact hpb
          · exact hacc.1 r h
        · intro q hq
          dsimp only at hq
          cases hN : mapGet? acc.2 p.1 with
          | none =>
              rw [hN] at hq
              exact hacc.2 q hq
          | some nm =>
              rw [hN] at hq
              dsimp only at hq
              rcases mem_mapSet hq with h | h
              · have hnm : (p.1, nm) ∈ acc.2 := mapGet?_mem hN
                have hnmP := hacc.2 _ hnm
                subst h
                refine ⟨hpb, ?_⟩
                intro r hr
                rcases mem_mapSet hr with h' | h'
                · rw [h']
                · have h1 := List.mem_of_mem_filter h'
                  have h2 := List.mem_of_mem_filter h1
                  exact hnmP.2 r h2
              · exact hacc.2 q h

end DataMiner

namespace DataMiner

theorem range_getD (n i : ℕ) (hi : i < n) : (List.range n).getD i 0 = i := by
  rw [List.getD_eq_getElem _ _ (by simpa using hi)]
  simp

/-- Sanity of the seeded coarse multigraph: every id is below `bound` and
no community lists itself as a neighbor. -/
def EdgesSane (ce : CommEdges) (bound : ℕ) : Prop :=
  ∀ p ∈ ce, p.1 < bound ∧ ∀ r ∈ p.2, r.1 < bound ∧ r.1 ≠ p.1

theorem edgesSane_mapSet_empty {ce : CommEdges} {bound k : ℕ}
    (hce : EdgesSane ce bound) (hk : k < bound) :
    EdgesSane (mapSet ce k []) bound := by
  intro p hp
  rcases mem_mapSet hp with h | h
  · subst h
    exact ⟨hk, by simp⟩
  · exact hce p h

theorem edgesSane_update {ce : CommEdges} {bound ka kb : ℕ} {x : ℚ}
    (hce : EdgesSane ce bound) (hka : ka < bound) (hkb : kb < bound)
    (hne : kb ≠ ka) :
    EdgesSane (mapSet ce ka (mapSet (mapGetD ce ka []) kb x)) bound := by
  intro p hp
  rcases mem_mapSet hp with h | h
  · subst h
    refine ⟨hka, ?_⟩
    intro r hr
    rcases mem_mapSet hr with h' | h'
    · rw [h']
      exact ⟨hkb, hne⟩
    · cases hG : mapGet? ce ka with
      | none =>
          rw [mapGetD, hG] at h'
          simp at h'
      | some v =>
          rw [mapGetD, hG] at h'
          exact hce _ (mapGet?_mem hG) |>.2 r h'
  · exact hce p h

theorem seedCommEdges_sane (M : List (List ℚ)) (cm : CommunityManager)
    (hcm : cm.nodeToComm = List.range M.length) :
    EdgesSane (seedCommEdges M cm) M.length := by
  unfold seedCommEdges
  refine foldl_preserves _ _ _ (fun ce => EdgesSane ce M.length)
    (by intro p hp; simp at hp) ?_
  intro ce node hnode hce
  refine foldl_preserves _ _ _ (fun ce => EdgesSane ce M.length) hce ?_
  intro ce2 neighbor hnbr hce2
  by_cases hskip : neighbor ≤ node
  · rw [if_pos hskip]
    exact hce2
  · rw [if_neg hskip]
    have hnode' : node < M.length := List.mem_range.mp hnode
    have hnbr' : neighbor < M.length := by
      have := List.mem_filter.mp hnbr
      exact List.mem_range.mp this.1
    have hA : cm.nodeToComm.getD node 0 = node := by
      rw [hcm, range_getD _ _ hnode']
    have hB : cm.nodeToComm.getD neighbor 0 = neighbor := by
      rw [hcm, range_getD _ _ hnbr']
    rw [hA, hB]
    by_cases heq : node = neighbor
    · rw [if_pos heq]
      exact hce2
    · rw [if_neg heq]
      dsimp only
      refine edgesSane_update ?_ hnbr' hnode' heq
      refine edgesSane_update ?_ hnode' hnbr' (fun h => heq h.symm)
      by_cases hB2 : mapHas (if mapHas ce2 node = true then ce2
          else mapSet ce2 node []) neighbor = true
      · rw [if_pos hB2]
        by_cases hA2 : mapHas ce2 node = true
        · rw [if_pos hA2]
          exact hce2
        · rw [if_neg hA2]
          exact edgesSane_mapSet_empty hce2 hnode'
      · rw [if_neg hB2]
        refine edgesSane_mapSet_empty ?_ hnbr'
        by_cases hA2 : mapHas ce2 node = true
        · rw [if_pos hA2]
          exact hce2
        · rw [if_neg hA2]
          exact edgesSane_mapSet_empty hce2 hnode'

theorem seedHeap_below (cm : CommunityManager) (ce : CommEdges) (bound : ℕ)
    (hce : EdgesSane ce bound) : HeapBelow (seedHeap cm ce) bound := by
  unfold seedHeap
  refine foldl_preserves _ ce (([], []) : List (ℕ × ℕ) × List MergeCandidate)
    (fun acc : List (ℕ × ℕ) × List MergeCandidate => HeapBelow acc.2 bound)
    (by intro c hc; simp at hc) ?_
  intro acc entry hentry hacc
  have hent := hce entry hentry
  refine foldl_preserves _ _ _
    (fun acc2 : List (ℕ × ℕ) × List MergeCandidate => HeapBelow acc2.2 bound)
    hacc ?_
  intro acc2 inner hinner hacc2
  have hin := hent.2 inner hinner
  show HeapBelow (if (if entry.1 < inner.1 then (entry.1, inner.1)
      else (inner.1, entry.1)) ∈ acc2.1 then acc2
    else ((if entry.1 < inner.1 then (entry.1, inner.1) else (inner.1, entry.1)) :: acc2.1,
      MaxHeap.insert acc2.2
        ⟨cm.deltaQ entry.1 inner.1 inner.2, entry.1, inner.1⟩)).2 bound
  by_cases hkey : (if entry.1 < inner.1 then (entry.1, inner.1)
      else (inner.1, entry.1)) ∈ acc2.1
  · rw [if_pos hkey]
    exact hacc2
  · rw [if_neg hkey]
    intro c hc
    rcases MaxHeap.mem_insert hc with h | h
    · exact hacc2 c h
    · subst h
      exact ⟨fun hh => hin.2 hh.symm, hent.1, hin.1⟩

end DataMiner

namespace DataMiner

theorem merge_inv_parts (cm0 : CommunityManager) (ce0 : CommEdges)
    (heap0 heap1 : List MergeCandidate) (cand : MergeCandidate) (dA dB : ℚ)
    (hnodup : (cm0.commDegree.map Prod.fst).Nodup)
    (hklt : ∀ k ∈ cm0.commDegree.map Prod.fst, k < cm0.nextCommId)
    (hheap : HeapBelow heap0 cm0.nextCommId)
    (hedges : EdgesBelow ce0 cm0.nextCommId)
    (hE : MaxHeap.extractMax heap0 = some (cand, heap1))
    (hdA : mapGet? cm0.commDegree cand.commA = some dA)
    (hdB : mapGet? cm0.commDegree cand.commB = some dB) :
    (((cm0.mergeCommunities cand.commA cand.commB).2.commDegree.map Prod.fst).Nodup) ∧
    (∀ k ∈ (cm0.mergeCommunities cand.commA cand.commB).2.commDegree.map Prod.fst,
      k < (cm0.mergeCommunities cand.commA cand.commB).2.nextCommId) ∧
    HeapBelow
      ((updateNeighbors cand.commB cm0.nextCommId cand.commA cand.commB
          (updateNeighbors cand.commA cm0.nextCommId cand.commA cand.commB
            ([], ce0))).1.foldl
        (fun h p => MaxHeap.insert h
          ⟨(cm0.mergeCommunities cand.commA cand.commB).2.deltaQ
              cm0.nextCommId p.1 p.2, cm0.nextCommId, p.1⟩) heap1)
      (cm0.nextCommId + 1) ∧
    EdgesBelow
      (mapSet (mapDelete (mapDelete
          (updateNeighbors cand.commB cm0.nextCommId cand.commA cand.commB
            (updateNeighbors cand.commA cm0.nextCommId cand.commA cand.commB
              ([], ce0))).2 cand.commA) cand.commB)
        cm0.nextCommId
        (updateNeighbors cand.commB cm0.nextCommId cand.commA cand.commB
          (updateNeighbors cand.commA cm0.nextCommId cand.commA cand.commB
            ([], ce0))).1)
      (cm0.nextCommId + 1) := by
  have hab : cand.commA ≠ cand.commB := (hheap cand (MaxHeap.extractMax_mem hE)).1
  have haklt : cand.commA < cm0.nextCommId :=
    hklt _ ((mapGet?_isSome_iff_mem_keys _ _).1 (by rw [hdA]; rfl))
  have hbklt : cand.commB < cm0.nextCommId :=
    hklt _ ((mapGet?_isSome_iff_mem_keys _ _).1 (by rw [hdB]; rfl))
  have hmid : mapGet? cm0.commDegree cm0.nextCommId = none := by
    apply mapGet?_eq_none_of_not_mem_keys
    intro hmem
    exact absurd (hklt _ hmem) (lt_irrefl _)
  have hkeq := merge_commDegree_eq cm0 cand.commA cand.commB hmid
    (by omega) (by omega)
  -- phase 1 of the multigraph re-keying
  have h1 := updateNeighbors_below cand.commA cand.commA cand.commB
    cm0.nextCommId ([], ce0)
    (by
      intro v hv r hr
      exact (hedges _ (mapGet?_mem hv)).2 r hr)
    (by intro r hr; simp at hr)
    (by
      intro p hp
      exact ⟨(hedges p hp).1, fun r hr => le_of_lt ((hedges p hp).2 r hr)⟩)
  have hget := updateNeighbors_get_preserved cand.commA cm0.nextCommId
    cand.commA cand.commB cand.commB ([], ce0) (Or.inr rfl)
  have h2 := updateNeighbors_below cand.commB cand.commA cand.commB
    cm0.nextCommId
    (updateNeighbors cand.commA cm0.nextCommId cand.commA cand.commB ([], ce0))
    (by
      intro v hv r hr
      rw [hget] at hv
      exact (hedges _ (mapGet?_mem hv)).2 r hr)
    h1.1 h1.2
  refine ⟨?_, ?_, ?_, ?_⟩
  · rw [hkeq, List.map_append]
    refine List.Nodup.append ?_ (by simp) ?_
    · rw [mapDelete_keys, mapDelete_keys]
      exact List.Nodup.filter _ (List.Nodup.filter _ hnodup)
    · intro x hx hy
      simp only [List.map_cons, List.map_nil, List.mem_singleton] at hy
      subst hy
      rw [mapDelete_keys, mapDelete_keys] at hx
      have hx1 := List.mem_of_mem_filter (List.mem_of_mem_filter hx)
      exact absurd (hklt _ hx1) (lt_irrefl _)
  · intro k hk
    rw [hkeq, List.map_append] at hk
    have hnext : (cm0.mergeCommunities cand.commA cand.commB).2.nextCommId =
        cm0.nextCommId + 1 := rfl
    rw [hnext]
    rcases List.mem_append.mp hk with h | h
    · rw [mapDelete_keys, mapDelete_keys] at h
      have := hklt _ (List.mem_of_mem_filter (List.mem_of_mem_filter h))
      omega
    · simp only [List.map_cons, List.map_nil, List.mem_singleton] at h
      omega
  · refine foldl_preserves _ _ _ (fun h => HeapBelow h (cm0.nextCommId + 1)) ?_ ?_
    · intro c hc
      have := hheap c (MaxHeap.mem_extractMax_rest hE hc)
      exact ⟨this.1, by omega, by omega⟩
    · intro acc p hp hacc
      intro c hc
      rcases MaxHeap.mem_insert hc with h | h
      · exact hacc c h
      · subst h
        have hpb : p.1 < cm0.nextCommId := h2.1 p hp
        refine ⟨?_, ?_, ?_⟩
        · show cm0.nextCommId ≠ p.1
          omega
        · show cm0.nextCommId < cm0.nextCommId + 1
          omega
        · show p.1 < cm0.nextCommId + 1
          omega
  · intro p hp
    rcases mem_mapSet hp with h | h
    · subst h
      refine ⟨by omega, ?_⟩
      intro r hr
      have := h2.1 r hr
      omega
    · have h' := List.mem_of_mem_filter (List.mem_of_mem_filter h)
      have hp2 := h2.2 p h'
      exact ⟨by omega, fun r hr => by have := hp2.2 r hr; omega⟩

end DataMiner

namespace DataMiner

theorem loopGo_history_length (desired fuel : ℕ) (st : LoopState)
    (hinv : LoopInv st) (hpos : 1 ≤ st.cm.commDegree.length) :
    (loopGo desired fuel st).history.length + 1 ≤
      st.history.length + st.cm.commDegree.length := by
  induction fuel generalizing st with
  | zero =>
      dsimp only [loopGo]
      omega
  | succ f ih =>
      unfold loopGo
      split
      · omega
      split
      · omega
      split
      · omega
      rename_i cand heap1 hE
      split
      · dsimp only
        omega
      split
      · -- stale candidate: lazily discarded, recurse on the popped heap
        refine le_trans (ih _ ⟨hinv.1, hinv.2.1, ?_, hinv.2.2.2⟩ hpos) ?_
        · intro c hc
          exact hinv.2.2.1 c (MaxHeap.mem_extractMax_rest hE hc)
        · dsimp only
          omega
      · -- accepted merge: live count drops by one, one history entry added
        rename_i h4
        have hhasA : mapHas st.cm.commDegree cand.commA = true := by
          cases hA : mapHas st.cm.commDegree cand.commA
          · rw [hA] at h4
            simp at h4
          · rfl
        have hhasB : mapHas st.cm.commDegree cand.commB = true := by
          cases hB : mapHas st.cm.commDegree cand.commB
          · rw [hB] at h4
            simp at h4
          · rfl
        unfold mapHas at hhasA hhasB
        obtain ⟨dA, hdA⟩ := Option.isSome_iff_exists.mp hhasA
        obtain ⟨dB, hdB⟩ := Option.isSome_iff_exists.mp hhasB
        have hab : cand.commA ≠ cand.commB :=
          (hinv.2.2.1 cand (MaxHeap.extractMax_mem hE)).1
        have hlen := merge_commDegree_length st.cm cand.commA cand.commB dA dB
          hinv.1 hinv.2.1 hab hdA hdB
        have hparts := merge_inv_parts st.cm st.commEdges st.heap heap1 cand dA dB
          hinv.1 hinv.2.1 hinv.2.2.1 hinv.2.2.2 hE hdA hdB
        refine le_trans
          (ih _ ⟨hparts.1, hparts.2.1, hparts.2.2.1, hparts.2.2.2⟩ ?_) ?_
        · show 1 ≤ (st.cm.mergeCommunities cand.commA cand.commB).2.commDegree.length
          omega
        · dsimp only
          rw [hlen.1, List.length_append]
          simp only [List.length_cons, List.length_nil]
          omega

end DataMiner

namespace DataMiner

theorem init_keys (n : ℕ) (ds : List ℚ) (m : ℚ) :
    (CommunityManager.init n ds m).commDegree.map Prod.fst = List.range n := by
  simp only [CommunityManager.init, List.map_map]
  have hcomp : (Prod.fst ∘ fun i : ℕ => (i, ds.getD i 0)) = id := by
    funext i
    rfl
  rw [hcomp, List.map_id]

/-- C8: the trajectory `fit` returns has at most n entries for an n-node
graph (n ≥ 1): one initial entry plus at most n − 1 accepted merges, since
each accepted merge shrinks the live-community table by exactly one and
the table never empties.  This holds for every fuel value supplied to the
loop, so it is independent of the loop bound. -/
theorem fit_trajectory_bound (numC : Option ℕ) (M : List (List ℚ))
    (hn : 1 ≤ M.length) :
    (fit numC M).modularityHistory.length ≤ M.length := by
  have hsane := seedCommEdges_sane M
    (CommunityManager.init M.length (degreesOf M) (edgeCountOf M)) rfl
  have hinv : LoopInv
      ⟨CommunityManager.init M.length (degreesOf M) (edgeCountOf M),
       seedCommEdges M (CommunityManager.init M.length (degreesOf M) (edgeCountOf M)),
       seedHeap (CommunityManager.init M.length (degreesOf M) (edgeCountOf M))
         (seedCommEdges M (CommunityManager.init M.length (degreesOf M) (edgeCountOf M))),
       computeInitialModularity
         (CommunityManager.init M.length (degreesOf M) (edgeCountOf M)),
       [] ++ [⟨computeInitialModularity
           (CommunityManager.init M.length (degreesOf M) (edgeCountOf M)),
         extractCommunities (CommunityManager.init M.length (degreesOf M)
           (edgeCountOf M)).nodeToComm⟩]⟩ := by
    refine ⟨?_, ?_, ?_, ?_⟩
    · show ((CommunityManager.init M.length (degreesOf M)
        (edgeCountOf M)).commDegree.map Prod.fst).Nodup
      rw [init_keys]
      exact List.nodup_range _
    · intro k hk
      rw [init_keys] at hk
      exact List.mem_range.mp hk
    · exact seedHeap_below _ _ _ hsane
    · intro p hp
      exact ⟨(hsane p hp).1, fun r hr => ((hsane p hp).2 r hr).1⟩
  have hpos : (1 : ℕ) ≤ (CommunityManager.init M.length (degreesOf M)
      (edgeCountOf M)).commDegree.length := by
    rw [init_commDegree_length]
    exact hn
  have hb := loopGo_history_length (numC.getD 1) (fitFuel M) _ hinv hpos
  dsimp only at hb
  rw [init_commDegree_length, List.length_append] at hb
  simp only [List.length_nil, List.length_singleton] at hb
  simp only [fit, fitFrom]
  omega

/-- Witness for C8: the 2-node single-edge run has 2 ≤ 2 entries. -/
theorem fit_trajectory_bound_witness :
    1 ≤ edgeTwo.length ∧ (fit none edgeTwo).modularityHistory.length ≤ edgeTwo.length :=
  ⟨by decide, fit_trajectory_bound none edgeTwo (by decide)⟩

end DataMiner

namespace DataMiner

namespace MaxHeap

theorem getD_set_self (l : List MergeCandidate) (i : ℕ) (v : MergeCandidate)
    (hi : i < l.length) : (l.set i v).getD i default = v := by
  rw [List.getD_eq_getElem _ _ (by simpa using hi)]
  exact List.getElem_set_self _

theorem getD_set_ne (l : List MergeCandidate) (i j : ℕ) (v : MergeCandidate)
    (h : i ≠ j) : (l.set i v).getD j default = l.getD j default := by
  by_cases hj : j < l.length
  · rw [List.getD_eq_getElem _ _ (by simpa using hj),
      List.getD_eq_getElem _ _ hj]
    exact List.getElem_set_ne h _
  · rw [List.getD_eq_getElem?_getD, List.getD_eq_getElem?_getD]
    rw [List.getElem?_eq_none (by simpa using le_of_not_lt hj),
      List.getElem?_eq_none (le_of_not_lt hj)]

theorem getD_swapL (l : List MergeCandidate) (i j k : ℕ)
    (hi : i < l.length) (hj : j < l.length) :
    (swapL l i j).getD k default =
      if k = j then l.getD i default
      else if k = i then l.getD j default
      else l.getD k default := by
  unfold swapL
  by_cases hkj : k = j
  · subst hkj
    rw [if_pos rfl, getD_set_self _ _ _ (by simpa using hj)]
  · rw [if_neg hkj, getD_set_ne _ _ _ _ (fun h => hkj h.symm)]
    by_cases hki : k = i
    · subst hki
      rw [if_pos rfl, getD_set_self _ _ _ hi]
    · rw [if_neg hki, getD_set_ne _ _ _ _ (fun h => hki h.symm)]

/-- The binary-heap shape property of the backing array: every non-root
slot is dominated by its parent slot. -/
def IsHeap (l : List MergeCandidate) : Prop :=
  ∀ j, 0 < j → j < l.length →
    (l.getD j default).deltaQ ≤ (l.getD ((j - 1) / 2) default).deltaQ

theorem isHeap_le_root (l : List MergeCandidate) (hl : IsHeap l) (j : ℕ)
    (hj : j < l.length) :
    (l.getD j default).deltaQ ≤ (l.getD 0 default).deltaQ := by
  induction j using Nat.strong_induction_on with
  | _ j ih =>
      cases j with
      | zero => exact le_refl _
      | succ jj =>
          have h1 := hl (jj + 1) (by omega) hj
          have h2 : (jj + 1 - 1) / 2 < jj + 1 := by omega
          exact le_trans h1 (ih _ h2 (by omega))

end MaxHeap

end DataMiner

namespace DataMiner

namespace MaxHeap

/-- Invariant of the upward sift: the heap shape holds everywhere except
possibly on the edge from slot `i` to its parent, and the children of `i`
are additionally dominated by `i`'s parent (so that swapping `i` with its
parent cannot break their edges). -/
def UpInv (l : List MergeCandidate) (i : ℕ) : Prop :=
  (∀ j, 0 < j → j < l.length → j ≠ i →
    (l.getD j default).deltaQ ≤ (l.getD ((j - 1) / 2) default).deltaQ) ∧
  (0 < i → ∀ j, 0 < j → j < l.length → (j - 1) / 2 = i →
    (l.getD j default).deltaQ ≤ (l.getD ((i - 1) / 2) default).deltaQ)

theorem bubbleUpAux_isHeap (fuel : ℕ) (l : List MergeCandidate) (i : ℕ)
    (hfuel : i < fuel) (hi : i < l.length) (hinv : UpInv l i) :
    IsHeap (bubbleUpAux fuel l i) := by
  induction fuel generalizing l i with
  | zero => omega
  | succ f ih =>
      cases i with
      | zero =>
          show IsHeap l
          intro j hj0 hjl
          exact hinv.1 j hj0 hjl (by omega)
      | succ ii =>
          rw [bubbleUpAux]
          by_cases hc : (l.getD (ii + 1) default).deltaQ ≤
              (l.getD (ii / 2) default).deltaQ
          · rw [if_pos hc]
            intro j hj0 hjl
            by_cases hji : j = ii + 1
            · subst hji
              have hpar : (ii + 1 - 1) / 2 = ii / 2 := by omega
              rw [hpar]
              exact hc
            · exact hinv.1 j hj0 hjl hji
          · rw [if_neg hc]
            push_neg at hc
            have hplt : ii / 2 < l.length := by omega
            refine ih (swapL l (ii + 1) (ii / 2)) (ii / 2) (by omega)
              (by rw [swapL_length]; omega) ⟨?_, ?_⟩
            · intro j hj0 hjl hjp
              rw [swapL_length] at hjl
              have hjpar : (j - 1) / 2 < l.length := by
                have : (j - 1) / 2 < j := by omega
                omega
              rw [getD_swapL _ _ _ _ hi hplt, getD_swapL _ _ _ _ hi hplt]
              by_cases hj1 : j = ii + 1
              · subst hj1
                have h1 : (ii + 1 - 1) / 2 = ii / 2 := by omega
                rw [if_neg (by omega), if_pos rfl, h1, if_pos rfl]
                exact le_of_lt hc
              · by_cases hp1 : (j - 1) / 2 = ii + 1
                · rw [hp1, if_neg (by omega), if_neg hj1, if_neg (by omega),
                    if_pos rfl]
                  have := hinv.2 (by omega) j hj0 hjl hp1
                  have h1 : (ii + 1 - 1) / 2 = ii / 2 := by omega
                  rw [h1] at this
                  exact this
                · by_cases hp2 : (j - 1) / 2 = ii / 2
                  · rw [hp2, if_pos rfl, if_neg hjp, if_neg hj1]
                    have h1 := hinv.1 j hj0 hjl hj1
                    rw [hp2] at h1
                    exact le_of_lt (lt_of_le_of_lt h1 hc)
                  · rw [if_neg hjp, if_neg hj1, if_neg hp2, if_neg hp1]
                    exact hinv.1 j hj0 hjl hj1
            · intro hp0 j hj0 hjl hpj
              rw [swapL_length] at hjl
              have hgp : (ii / 2 - 1) / 2 < ii / 2 := by omega
              rw [getD_swapL _ _ _ _ hi hplt, getD_swapL _ _ _ _ hi hplt]
              rw [if_neg (by omega : ¬ (ii / 2 - 1) / 2 = ii / 2),
                if_neg (by omega : ¬ (ii / 2 - 1) / 2 = ii + 1)]
              by_cases hj1 : j = ii + 1
              · subst hj1
                rw [if_neg (by omega), if_pos rfl]
                have h1 := hinv.1 (ii / 2) hp0 hplt (by omega)
                exact h1
              · have hjne : j ≠ ii / 2 := by omega
                rw [if_neg hjne, if_neg hj1]
                have h1 := hinv.1 j hj0 hjl hj1
                rw [hpj] at h1
                have h2 := hinv.1 (ii / 2) hp0 hplt (by omega)
                exact le_trans h1 h2

theorem insert_isHeap (l : List MergeCandidate) (c : MergeCandidate)
    (hl : IsHeap l) : IsHeap (insert l c) := by
  unfold insert bubbleUp
  have hlen : (l ++ [c]).length = l.length + 1 := by simp
  refine bubbleUpAux_isHeap _ _ _ (by omega) (by omega) ⟨?_, ?_⟩
  · intro j hj0 hjl hji
    rw [hlen] at hjl
    have hjlt : j < l.length := by omega
    have hplt : (j - 1) / 2 < l.length := by omega
    rw [List.getD_eq_getElem?_getD, List.getD_eq_getElem?_getD,
      List.getElem?_append_left hjlt, List.getElem?_append_left hplt,
      ← List.getD_eq_getElem?_getD, ← List.getD_eq_getElem?_getD]
    exact hl j hj0 hjlt
  · intro h0 j hj0 hjl hpj
    rw [hlen] at hjl
    omega

end MaxHeap

end DataMiner

namespace DataMiner

namespace MaxHeap

theorem downTarget_eq_self (l : List MergeCandidate) (i : ℕ)
    (h : downTarget l i = i) :
    (2 * i + 1 < l.length →
      (l.getD (2 * i + 1) default).deltaQ ≤ (l.getD i default).deltaQ) ∧
    (2 * i + 2 < l.length →
      (l.getD (2 * i + 2) default).deltaQ ≤ (l.getD i default).deltaQ) := by
  simp only [downTarget] at h
  by_cases h1 : 2 * i + 1 < l.length ∧
      (l.getD i default).deltaQ < (l.getD (2 * i + 1) default).deltaQ
  · rw [if_pos h1] at h
    by_cases h2 : 2 * i + 2 < l.length ∧
        (l.getD (2 * i + 1) default).deltaQ < (l.getD (2 * i + 2) default).deltaQ
    · rw [if_pos h2] at h
      omega
    · rw [if_neg h2] at h
      omega
  · rw [if_neg h1] at h
    by_cases h2 : 2 * i + 2 < l.length ∧
        (l.getD i default).deltaQ < (l.getD (2 * i + 2) default).deltaQ
    · rw [if_pos h2] at h
      omega
    · push_neg at h1 h2
      exact ⟨h1, h2⟩

theorem downTarget_ne_spec (l : List MergeCandidate) (i : ℕ)
    (h : downTarget l i ≠ i) :
    (downTarget l i = 2 * i + 1 ∨ downTarget l i = 2 * i + 2) ∧
    (l.getD i default).deltaQ < (l.getD (downTarget l i) default).deltaQ ∧
    (∀ s, (s = 2 * i + 1 ∨ s = 2 * i + 2) → s < l.length → s ≠ downTarget l i →
      (l.getD s default).deltaQ ≤ (l.getD (downTarget l i) default).deltaQ) := by
  simp only [downTarget] at h ⊢
  by_cases h1 : 2 * i + 1 < l.length ∧
      (l.getD i default).deltaQ < (l.getD (2 * i + 1) default).deltaQ
  · rw [if_pos h1] at h ⊢
    by_cases h2 : 2 * i + 2 < l.length ∧
        (l.getD (2 * i + 1) default).deltaQ < (l.getD (2 * i + 2) default).deltaQ
    · rw [if_pos h2] at h ⊢
      refine ⟨Or.inr rfl, lt_trans h1.2 h2.2, ?_⟩
      intro s hs hsl hsne
      rcases hs with hs | hs
      · subst hs
        exact le_of_lt h2.2
      · omega
    · rw [if_neg h2] at h ⊢
      push_neg at h2
      refine ⟨Or.inl rfl, h1.2, ?_⟩
      intro s hs hsl hsne
      rcases hs with hs | hs
      · omega
      · subst hs
        exact h2 hsl
  · rw [if_neg h1] at h ⊢
    push_neg at h1
    by_cases h2 : 2 * i + 2 < l.length ∧
        (l.getD i default).deltaQ < (l.getD (2 * i + 2) default).deltaQ
    · rw [if_pos h2] at h ⊢
      refine ⟨Or.inr rfl, h2.2, ?_⟩
      intro s hs hsl hsne
      rcases hs with hs | hs
      · subst hs
        exact le_of_lt (lt_of_le_of_lt (h1 hsl) h2.2)
      · omega
    · rw [if_neg h2] at h
      omega

/-- Invariant of the downward sift: the heap shape holds on every edge not
pointing at slot `i`, and the children of `i` are dominated by `i`'s
parent. -/
def DownInv (l : List MergeCandidate) (i : ℕ) : Prop :=
  (∀ j, 0 < j → j < l.length → (j - 1) / 2 ≠ i →
    (l.getD j default).deltaQ ≤ (l.getD ((j - 1) / 2) default).deltaQ) ∧
  (0 < i → ∀ j, 0 < j → j < l.length → (j - 1) / 2 = i →
    (l.getD j default).deltaQ ≤ (l.getD ((i - 1) / 2) default).deltaQ)

theorem bubbleDownAux_isHeap (fuel : ℕ) (l : List MergeCandidate) (i : ℕ)
    (hfuel : l.length - i < fuel) (hinv : DownInv l i) :
    IsHeap (bubbleDownAux fuel l i) := by
  induction fuel generalizing l i with
  | zero => omega
  | succ f ih =>
      rw [bubbleDownAux]
      by_cases hT : downTarget l i = i
      · rw [if_pos hT]
        have hch := downTarget_eq_self l i hT
        intro j hj0 hjl
        by_cases hpar : (j - 1) / 2 = i
        · have hj12 : j = 2 * i + 1 ∨ j = 2 * i + 2 := by omega
          rw [hpar]
          rcases hj12 with hj | hj <;> subst hj
          · exact hch.1 hjl
          · exact hch.2 hjl
        · exact hinv.1 j hj0 hjl hpar
      · rw [if_neg hT]
        have hspec := downTarget_ne_spec l i hT
        have hLlt : downTarget l i < l.length := downTarget_lt_length l i hT
        have hLgt : i < downTarget l i := by
          have := le_downTarget l i
          omega
        have hilt : i < l.length := by omega
        refine ih (swapL l i (downTarget l i)) (downTarget l i) ?_ ⟨?_, ?_⟩
        · rw [swapL_length]
          omega
        · intro j hj0 hjl hjpar
          rw [swapL_length] at hjl
          rw [getD_swapL _ _ _ _ hilt hLlt, getD_swapL _ _ _ _ hilt hLlt]
          have hLpar : ((downTarget l i) - 1) / 2 = i := by
            rcases hspec.1 with hL | hL <;> omega
          by_cases hjL : j = downTarget l i
          · subst hjL
            rw [hLpar, if_pos rfl, if_neg (by omega), if_pos rfl]
            exact le_of_lt hspec.2.1
          · by_cases hji : j = i
            · rw [hji]
              have hi0 : 0 < i := by omega
              rw [if_neg (by omega), if_pos rfl,
                if_neg (by omega : ¬ (i - 1) / 2 = downTarget l i),
                if_neg (by omega : ¬ (i - 1) / 2 = i)]
              exact hinv.2 hi0 (downTarget l i) (by omega) hLlt hLpar
            · by_cases hpi : (j - 1) / 2 = i
              · rw [if_neg hjL, if_neg hji, hpi, if_neg (by omega), if_pos rfl]
                have hj12 : j = 2 * i + 1 ∨ j = 2 * i + 2 := by omega
                exact hspec.2.2 j hj12 hjl hjL
              · rw [if_neg hjL, if_neg hji, if_neg ?hne1, if_neg hpi]
                · exact hinv.1 j hj0 hjl hpi
                · exact hjpar
        · intro hL0 j hj0 hjl hjpar
          rw [swapL_length] at hjl
          rw [getD_swapL _ _ _ _ hilt hLlt, getD_swapL _ _ _ _ hilt hLlt]
          have hLpar : ((downTarget l i) - 1) / 2 = i := by
            rcases hspec.1 with hL | hL <;> omega
          rw [hLpar, if_neg (by omega), if_pos rfl]
          have hjgt : downTarget l i < j := by omega
          rw [if_neg (by omega), if_neg (by omega)]
          have h1 := hinv.1 j hj0 hjl (by omega)
          rw [hjpar] at h1
          exact h1

theorem extractMax_rest_isHeap {l rest : List MergeCandidate}
    {cand : MergeCandidate} (hl : IsHeap l)
    (hE : extractMax l = some (cand, rest)) : IsHeap rest := by
  unfold extractMax at hE
  by_cases hnil : l = []
  · rw [if_pos hnil] at hE
    exact absurd hE (by simp)
  · rw [if_neg hnil] at hE
    have hlen : 0 < l.length := List.length_pos.mpr hnil
    have hrest := ((Prod.mk.injEq _ _ _ _).mp (Option.some.inj hE)).2
    rw [← hrest]
    unfold bubbleDown
    refine bubbleDownAux_isHeap _ _ _ (by omega) ⟨?_, ?_⟩
    · intro j hj0 hjl hjpar
      have hdlen : ((swapL l 0 (l.length - 1)).dropLast).length = l.length - 1 := by
        rw [List.length_dropLast, swapL_length]
      rw [hdlen] at hjl
      have hplt : (j - 1) / 2 < l.length - 1 := by omega
      have hget : ∀ k, 0 < k → k < l.length - 1 →
          ((swapL l 0 (l.length - 1)).dropLast).getD k default = l.getD k default := by
        intro k hk0 hkl
        have hk1 : k < ((swapL l 0 (l.length - 1)).dropLast).length := by omega
        rw [List.getD_eq_getElem _ _ hk1, List.getElem_dropLast,
          ← List.getD_eq_getElem _ default (by rw [swapL_length]; omega),
          getD_swapL _ _ _ _ hlen (by omega)]
        rw [if_neg (by omega), if_neg (by omega)]
      rw [hget j hj0 hjl, hget _ (by omega) hplt]
      exact hl j hj0 (by omega)
    · intro h0
      omega

end MaxHeap

/-- The heap states reachable from the empty heap by any sequence of
`insert` and `extractMax` operations. -/
inductive HeapReachable : List MergeCandidate → Prop
  | empty : HeapReachable []
  | ins {h : List MergeCandidate} {c : MergeCandidate} :
      HeapReachable h → HeapReachable (MaxHeap.insert h c)
  | ext {h h' : List MergeCandidate} {c : MergeCandidate} :
      HeapReachable h → MaxHeap.extractMax h = some (c, h') → HeapReachable h'

theorem heapReachable_isHeap {h : List MergeCandidate} (hr : HeapReachable h) :
    MaxHeap.IsHeap h := by
  induction hr with
  | empty =>
      intro j hj0 hjl
      simp at hjl
  | ins _ ih => exact MaxHeap.insert_isHeap _ _ ih
  | ext _ hE ih => exact MaxHeap.extractMax_rest_isHeap ih hE

end DataMiner

namespace DataMiner

/-- C9: on every heap state reachable by any sequence of `insert` and
`extractMax` operations, `extractMax` signals empty (`undefined`, here
`none`) exactly when the heap holds no elements, and otherwise returns an
element whose gain is greater than or equal to the gain of every element
remaining in the heap.  Which equal-gain maximum is returned is left to
the heap structure. -/
theorem extractMax_correct (h : List MergeCandidate) (hr : HeapReachable h) :
    (MaxHeap.extractMax h = none ↔ h = []) ∧
    (∀ cand rest, MaxHeap.extractMax h = some (cand, rest) →
      ∀ x ∈ rest, x.deltaQ ≤ cand.deltaQ) := by
  have hheap := heapReachable_isHeap hr
  constructor
  · constructor
    · intro hE
      by_contra hne
      unfold MaxHeap.extractMax at hE
      rw [if_neg hne] at hE
      exact absurd hE (by simp)
    · intro he
      subst he
      rfl
  · intro cand rest hE x hx
    have hxl : x ∈ h := MaxHeap.mem_extractMax_rest hE hx
    have hcand : cand = h.getD 0 default := by
      unfold MaxHeap.extractMax at hE
      by_cases hnil : h = []
      · rw [if_pos hnil] at hE
        exact absurd hE (by simp)
      · rw [if_neg hnil] at hE
        exact ((Prod.mk.injEq _ _ _ _).mp (Option.some.inj hE)).1.symm
    obtain ⟨jx, hjx, hjval⟩ := List.mem_iff_getElem.mp hxl
    calc x.deltaQ = ((h.getD jx default).deltaQ) := by
          rw [List.getD_eq_getElem _ _ hjx, hjval]
      _ ≤ (h.getD 0 default).deltaQ := MaxHeap.isHeap_le_root h hheap jx hjx
      _ = cand.deltaQ := by rw [hcand]

/-- Witness for C9: the one-element heap obtained by a single insert. -/
theorem extractMax_correct_witness :
    ((MaxHeap.extractMax (MaxHeap.insert [] ⟨1, 0, 1⟩) = none ↔
      MaxHeap.insert [] ⟨1, 0, 1⟩ = []) ∧
    (∀ cand rest, MaxHeap.extractMax (MaxHeap.insert [] ⟨1, 0, 1⟩) =
        some (cand, rest) → ∀ x ∈ rest, x.deltaQ ≤ cand.deltaQ)) :=
  extractMax_correct (MaxHeap.insert [] ⟨1, 0, 1⟩)
    (HeapReachable.ins HeapReachable.empty)

end DataMiner
